import Mathlib

/-!
Verification model of the cryosparc-tools dataset layer.

The visible source (src/pywrapper_wrapperfunctions.c) is the Python binding
wrapper: it parses arguments, calls the native engine functions `dset_*`
(declared in that file but implemented elsewhere), and marshals results back
to Python.  The binding layer below is embedded from that C source.  The
engine itself is not part of the visible sources, so its operations are
modelled from the specification (each such definition is marked
"Modelled from the spec:").
-/

/-- Scalar element types of the type registry: signed and unsigned integers of
several widths, floating point, complex, plus a distinguished string marker
(the spec's "distinguished tag value representing string"). -/
inductive DType where
  | i8 | i16 | i32 | i64
  | u8 | u16 | u32 | u64
  | f32 | f64
  | c32 | c64
  | str
deriving DecidableEq

/-- Byte width of each scalar element type (complex float is 8 bytes, complex
double is 16; the string marker has no fixed element width). -/
def DType.width : DType → Nat
  | .i8 => 1 | .u8 => 1
  | .i16 => 2 | .u16 => 2
  | .i32 => 4 | .u32 => 4 | .f32 => 4
  | .i64 => 8 | .u64 => 8 | .f64 => 8 | .c32 => 8
  | .c64 => 16
  | .str => 0

/-- Modelled from the spec: storage body of a column store.  A scalar column
holds one fixed-width value per row; an array column holds one flat row-slot of
`shape.prod` values per row; a string column holds one string per row in an
auxiliary pool, with `slack` bytes of holes left by replaced strings. -/
inductive ColBody where
  | scalar (t : DType) (cells : List Int)
  | arr (t : DType) (shape : List Nat) (cells : List (List Int))
  | strs (vals : List String) (slack : Nat)
deriving DecidableEq

/-- Number of row-slots currently stored in a column body. -/
def ColBody.rows : ColBody → Nat
  | .scalar _ cells => cells.length
  | .arr _ _ cells => cells.length
  | .strs vals _ => vals.length

/-- Element type tag of a column body (string columns report the string
marker). -/
def ColBody.typeTag : ColBody → DType
  | .scalar t _ => t
  | .arr t _ _ => t
  | .strs _ _ => .str

/-- Array rank of a column body: 0 for scalar and string columns, the length
of the shape descriptor for array columns. -/
def ColBody.rank : ColBody → Nat
  | .scalar _ _ => 0
  | .arr _ shape _ => shape.length
  | .strs _ _ => 0

/-- Modelled from the spec: row growth of one column body.  Appends `n`
zero-initialized row-slots for scalar/array columns and `n` empty strings for
string columns. -/
def ColBody.grow : ColBody → Nat → ColBody
  | .scalar t cells, n => .scalar t (cells ++ List.replicate n 0)
  | .arr t shape cells, n =>
      .arr t shape (cells ++ List.replicate n (List.replicate shape.prod 0))
  | .strs vals slack, n => .strs (vals ++ List.replicate n "") slack

/-- A column store: key, storage body, and allocated row capacity. -/
structure Column where
  key : String
  body : ColBody
  capacity : Nat
deriving DecidableEq

/-- Modelled from the spec: allocated bytes of one column, counted by
`dset_totalsz`.  Scalar/array buffers are sized by capacity; the string pool
counts each live null-terminated string plus the slack bytes of holes. -/
def Column.size (c : Column) : Nat :=
  match c.body with
  | .scalar t _ => c.capacity * t.width
  | .arr t shape _ => c.capacity * shape.prod * t.width
  | .strs vals slack => (vals.map (fun s => s.length + 1)).sum + slack

/-- A dataset: ordered-by-insertion list of uniquely keyed columns sharing one
row count. -/
structure Dataset where
  cols : List Column
  nrow : Nat
deriving DecidableEq

/-- The empty dataset produced by `dset_new`: zero columns, zero rows. -/
def emptyDataset : Dataset := ⟨[], 0⟩

/-- First column with the given key in a column list. -/
def findColIn : List Column → String → Option Column
  | [], _ => none
  | c :: rest, k => if c.key = k then some c else findColIn rest k

/-- Replaces the first column with the given key in a column list. -/
def updateColIn : List Column → String → Column → List Column
  | [], _, _ => []
  | c :: rest, k, c' => if c.key = k then c' :: rest else c :: updateColIn rest k c'

/-- Lookup of a column by key in a dataset. -/
def Dataset.findCol (d : Dataset) (k : String) : Option Column :=
  findColIn d.cols k

/-- Error taxonomy of the engine, from the specification. -/
inductive DsetErr where
  | UnknownHandle
  | DuplicateColumnKey
  | UnknownColumnKey
  | ColumnKindMismatch
  | IndexOutOfRange
  | InvalidShape
deriving DecidableEq

/-- Modelled from the spec: `addrows` on one dataset.  Every column grows by
`n` zero-initialized row-slots (empty strings for string columns), capacity is
kept at least `nrow + n`, and the shared row count increases by `n`. -/
def Dataset.addrows (d : Dataset) (n : Nat) : Dataset :=
  ⟨d.cols.map (fun c => ⟨c.key, c.body.grow n, max c.capacity (d.nrow + n)⟩),
   d.nrow + n⟩

/-- Modelled from the spec: `addcol_scalar` on one dataset.  Rejects duplicate
keys; otherwise appends a zero-initialized scalar column with the current row
count as extent and capacity. -/
def Dataset.addcolScalar (d : Dataset) (k : String) (t : DType) :
    Except DsetErr Dataset :=
  match d.findCol k with
  | some _ => .error .DuplicateColumnKey
  | none =>
      .ok ⟨d.cols ++ [⟨k, .scalar t (List.replicate d.nrow 0), d.nrow⟩], d.nrow⟩

/-- Modelled from the spec: `addcol_array` on one dataset.  Rejects a shape
with no dimension or a zero-sized dimension (`InvalidShape`), then duplicate
keys; otherwise appends a zero-initialized array column. -/
def Dataset.addcolArray (d : Dataset) (k : String) (t : DType)
    (shape : List Nat) : Except DsetErr Dataset :=
  if shape = [] ∨ 0 ∈ shape then .error .InvalidShape
  else
    match d.findCol k with
    | some _ => .error .DuplicateColumnKey
    | none =>
        .ok ⟨d.cols ++
              [⟨k, .arr t shape (List.replicate d.nrow (List.replicate shape.prod 0)),
                d.nrow⟩],
             d.nrow⟩

/-- Modelled from the spec: `setstr` on one dataset.  Replaces the string at
the given row of a string column; the released storage of the prior string
(its bytes plus terminator) becomes a hole counted in `slack`. -/
def Dataset.setstr (d : Dataset) (k : String) (i : Nat) (v : String) :
    Except DsetErr Dataset :=
  match d.findCol k with
  | none => .error .UnknownColumnKey
  | some c =>
      match c.body with
      | .strs vals slack =>
          if i < d.nrow then
            .ok ⟨updateColIn d.cols k
                  ⟨c.key, .strs (vals.set i v) (slack + (vals.getD i "").length + 1),
                   c.capacity⟩,
                 d.nrow⟩
          else .error .IndexOutOfRange
      | _ => .error .ColumnKindMismatch

/-- Modelled from the spec: `getstr` on one dataset. -/
def Dataset.getstr (d : Dataset) (k : String) (i : Nat) :
    Except DsetErr String :=
  match d.findCol k with
  | none => .error .UnknownColumnKey
  | some c =>
      match c.body with
      | .strs vals _ =>
          if i < d.nrow then .ok (vals.getD i "") else .error .IndexOutOfRange
      | _ => .error .ColumnKindMismatch

/-- Modelled from the spec: defragmentation of one column.  String-pool holes
are compacted away (slack becomes 0); when `rs` (realloc smaller) is set the
capacity is reallocated down to the tight-fit row count. -/
def Column.defragCol (rs : Bool) (c : Column) : Column :=
  ⟨c.key,
   match c.body with
   | .strs vals _ => .strs vals 0
   | b => b,
   if rs then c.body.rows else c.capacity⟩

/-- Modelled from the spec: `defrag` on one dataset, preserving all contents. -/
def Dataset.defrag (d : Dataset) (rs : Bool) : Dataset :=
  ⟨d.cols.map (Column.defragCol rs), d.nrow⟩

/-- Modelled from the spec: `key` on one dataset — the column key at an
ordinal position in insertion order, `IndexOutOfRange` past the end. -/
def Dataset.keyAt (d : Dataset) (i : Nat) : Except DsetErr String :=
  match d.cols[i]? with
  | some c => .ok c.key
  | none => .error .IndexOutOfRange

/-- Modelled from the spec: `type` on one dataset. -/
def Dataset.typeOf (d : Dataset) (k : String) : Except DsetErr DType :=
  match d.findCol k with
  | some c => .ok c.body.typeTag
  | none => .error .UnknownColumnKey

/-- Modelled from the spec: `getshp` on one dataset (array rank). -/
def Dataset.getshpOf (d : Dataset) (k : String) : Except DsetErr Nat :=
  match d.findCol k with
  | some c => .ok c.body.rank
  | none => .error .UnknownColumnKey

/-- Modelled from the spec: `totalsz` on one dataset — sum of all column
buffer allocations plus string-pool bytes. -/
def Dataset.totalsz (d : Dataset) : Nat :=
  (d.cols.map Column.size).sum

/-- The process-wide handle table: handle/dataset pairs plus the monotonically
increasing next handle (0 is the carved-out invalid sentinel, so counting
starts at 1). -/
structure Engine where
  table : List (Nat × Dataset)
  next : Nat
deriving DecidableEq

/-- Initial engine state: no live datasets, first handle will be 1. -/
def engineInit : Engine := ⟨[], 1⟩

/-- Lookup of a handle in the handle table. -/
def findDs : List (Nat × Dataset) → Nat → Option Dataset
  | [], _ => none
  | (k, d) :: rest, h => if k = h then some d else findDs rest h

/-- Replaces the dataset stored under a handle in the handle table. -/
def updateDs : List (Nat × Dataset) → Nat → Dataset → List (Nat × Dataset)
  | [], _, _ => []
  | (k, d) :: rest, h, d' =>
      if k = h then (k, d') :: rest else (k, d) :: updateDs rest h d'

/-- Removes the entry of a handle from the handle table. -/
def removeDs : List (Nat × Dataset) → Nat → List (Nat × Dataset)
  | [], _ => []
  | (k, d) :: rest, h => if k = h then rest else (k, d) :: removeDs rest h

/-- Modelled from the spec: `dset_new` allocates an empty dataset under a
fresh handle. -/
def dset_new (g : Engine) : Nat × Engine :=
  (g.next, ⟨(g.next, emptyDataset) :: g.table, g.next + 1⟩)

/-- Modelled from the spec and the visible declaration: `dset_del` is declared
`void dset_del(unsigned long long)` in src/pywrapper_wrapperfunctions.c, so it
has no channel through which to report anything; it releases the dataset of a
live handle and does nothing for an unknown one. -/
def dset_del (g : Engine) (h : Nat) : Engine :=
  ⟨removeDs g.table h, g.next⟩

/-- Modelled from the spec: `dset_copy` produces an independent deep copy
under a fresh handle; `UnknownHandle` for a dead handle. -/
def dset_copy (g : Engine) (h : Nat) : Except DsetErr (Nat × Engine) :=
  match findDs g.table h with
  | none => .error .UnknownHandle
  | some d => .ok (g.next, ⟨(g.next, d) :: g.table, g.next + 1⟩)

/-- Read-only engine operation on the dataset of a handle; `UnknownHandle`
when the handle is not live. -/
def queryDs {α : Type} (g : Engine) (h : Nat)
    (f : Dataset → Except DsetErr α) : Except DsetErr α :=
  match findDs g.table h with
  | none => .error .UnknownHandle
  | some d => f d

/-- Mutating engine operation on the dataset of a handle; `UnknownHandle` when
the handle is not live, and no state change when the dataset operation fails. -/
def mutateDs (g : Engine) (h : Nat)
    (f : Dataset → Except DsetErr Dataset) : Except DsetErr Engine :=
  match findDs g.table h with
  | none => .error .UnknownHandle
  | some d =>
      match f d with
      | .ok d' => .ok ⟨updateDs g.table h d', g.next⟩
      | .error e => .error e

/-- Modelled from the spec: `dset_totalsz`. -/
def dset_totalsz (g : Engine) (h : Nat) : Except DsetErr Nat :=
  queryDs g h (fun d => .ok d.totalsz)

/-- Modelled from the spec: `dset_ncol`. -/
def dset_ncol (g : Engine) (h : Nat) : Except DsetErr Nat :=
  queryDs g h (fun d => .ok d.cols.length)

/-- Modelled from the spec: `dset_nrow`. -/
def dset_nrow (g : Engine) (h : Nat) : Except DsetErr Nat :=
  queryDs g h (fun d => .ok d.nrow)

/-- Modelled from the spec: `dset_key`. -/
def dset_key (g : Engine) (h : Nat) (i : Nat) : Except DsetErr String :=
  queryDs g h (fun d => d.keyAt i)

/-- Modelled from the spec: `dset_type`. -/
def dset_type (g : Engine) (h : Nat) (k : String) : Except DsetErr DType :=
  queryDs g h (fun d => d.typeOf k)

/-- Modelled from the spec: `dset_getshp`. -/
def dset_getshp (g : Engine) (h : Nat) (k : String) : Except DsetErr Nat :=
  queryDs g h (fun d => d.getshpOf k)

/-- Modelled from the spec: `dset_getstr`. -/
def dset_getstr (g : Engine) (h : Nat) (k : String) (i : Nat) :
    Except DsetErr String :=
  queryDs g h (fun d => d.getstr k i)

/-- Modelled from the spec: `dset_setstr`. -/
def dset_setstr (g : Engine) (h : Nat) (k : String) (i : Nat) (v : String) :
    Except DsetErr Engine :=
  mutateDs g h (fun d => d.setstr k i v)

/-- Modelled from the spec: `dset_addrows`. -/
def dset_addrows (g : Engine) (h : Nat) (n : Nat) : Except DsetErr Engine :=
  mutateDs g h (fun d => .ok (d.addrows n))

/-- Modelled from the spec: `dset_addcol_scalar`. -/
def dset_addcol_scalar (g : Engine) (h : Nat) (k : String) (t : DType) :
    Except DsetErr Engine :=
  mutateDs g h (fun d => d.addcolScalar k t)

/-- Modelled from the spec: `dset_addcol_array`. -/
def dset_addcol_array (g : Engine) (h : Nat) (k : String) (t : DType)
    (shape : List Nat) : Except DsetErr Engine :=
  mutateDs g h (fun d => d.addcolArray k t shape)

/-- Modelled from the spec: `dset_defrag`. -/
def dset_defrag (g : Engine) (h : Nat) (rs : Bool) : Except DsetErr Engine :=
  mutateDs g h (fun d => .ok (d.defrag rs))

/-- Modelled from the spec: `dset_get` returns the raw buffer pointer of a
column, as `void * dset_get(...)`.  A null pointer (0) signals failure
(unknown handle or unknown column key); a concrete machine address is not
representable here, so a successful lookup is modelled as the nonzero
token 1 — only nullness is observable in the model. -/
def dset_get (g : Engine) (h : Nat) (k : String) : Nat :=
  match findDs g.table h with
  | none => 0
  | some d =>
      match d.findCol k with
      | none => 0
      | some _ => 1

/-- A Python-level exception raised by the binding layer. -/
inductive PyExn where
  | valueError (msg : String)
deriving DecidableEq

/-- Result of one binding call after successful argument parsing: either a
returned Python value or a raised exception. -/
inductive PyRes (α : Type) where
  | ok (v : α)
  | exn (e : PyExn)
deriving DecidableEq

/-- Binding wrapper `wrap_dset_del`, embedded from the C source: it calls the
void-returning `dset_del`, discards any outcome, and returns Python `None`
unconditionally (`(void)dset_del(dset); Py_RETURN_NONE;`). -/
def wrap_dset_del (g : Engine) (h : Nat) : PyRes Unit × Engine :=
  (PyRes.ok (), dset_del g h)

/-- Binding wrapper `wrap_dset_get`, embedded from the C source: the engine's
raw pointer is converted to a plain Python integer by `PyLong_FromVoidPtr`
with no error check, so a null pointer becomes the integer 0. -/
def wrap_dset_get (g : Engine) (h : Nat) (k : String) : PyRes Nat :=
  PyRes.ok (dset_get g h k)

/-- Element type tag of a numpy array argument, as checked by the binding. -/
inductive NpyDType where
  | uint8 | int8 | int16 | int32 | int64 | float32 | float64 | other
deriving DecidableEq

/-- A numpy array argument at the binding boundary: its element type tag, its
contiguity flag, and its raw data buffer as bytes. -/
structure NpyArray where
  dtype : NpyDType
  contiguous : Bool
  bytes : List (Fin 256)
deriving DecidableEq

/-- Modelled from the spec: the integer status code the engine returns for a
failed `dset_addcol_*` call (the engine sources are not visible; the spec
says these calls return a status). 0 stands for success below. -/
def statusInt : DsetErr → Int
  | .UnknownHandle => -1
  | .DuplicateColumnKey => -2
  | .UnknownColumnKey => -3
  | .ColumnKindMismatch => -4
  | .IndexOutOfRange => -5
  | .InvalidShape => -6

/-- Binding wrapper `wrap_dset_addcol_array`, embedded from the C source: the
shape argument must be a numpy array of element type uint8
(`PyArray_TYPE(shape) != C2NPY(uint8_t)` raises ValueError) and contiguous
(`!PyArray_ISCARRAY(shape)` raises ValueError); only then is the engine called
with the raw byte buffer as the shape, and its status is returned as a Python
integer. -/
def wrap_dset_addcol_array (g : Engine) (h : Nat) (k : String) (t : DType)
    (shape : NpyArray) : PyRes Int × Engine :=
  if shape.dtype ≠ NpyDType.uint8 then
    (PyRes.exn (.valueError "Invalid data type for argument shape (expected const uint8_t *)"), g)
  else if shape.contiguous = false then
    (PyRes.exn (.valueError "Argument shape is not contiguous"), g)
  else
    match dset_addcol_array g h k t (shape.bytes.map Fin.val) with
    | .ok g' => (PyRes.ok 0, g')
    | .error e => (PyRes.ok (statusInt e), g)

/-- One call of the engine interface, as issued through the binding.  Query
operations do not change engine state; they are included so that invariant
preservation ranges over the whole interface. -/
inductive Op where
  | newDs
  | del (h : Nat)
  | copy (h : Nat)
  | addrows (h n : Nat)
  | addcolScalar (h : Nat) (k : String) (t : DType)
  | addcolArray (h : Nat) (k : String) (t : DType) (shape : List Nat)
  | setstr (h : Nat) (k : String) (i : Nat) (v : String)
  | defrag (h : Nat) (rs : Bool)
  | totalszQ (h : Nat)
  | ncolQ (h : Nat)
  | nrowQ (h : Nat)
  | keyQ (h : Nat) (i : Nat)
  | typeQ (h : Nat) (k : String)
  | getshpQ (h : Nat) (k : String)
  | getstrQ (h : Nat) (k : String) (i : Nat)
  | getQ (h : Nat) (k : String)
  | dumptxt (h : Nat)
deriving DecidableEq

/-- The handle an operation is applied to (`none` for dataset creation, which
targets no existing handle). -/
def Op.target : Op → Option Nat
  | .newDs => none
  | .del h => some h
  | .copy h => some h
  | .addrows h _ => some h
  | .addcolScalar h _ _ => some h
  | .addcolArray h _ _ _ => some h
  | .setstr h _ _ _ => some h
  | .defrag h _ => some h
  | .totalszQ h => some h
  | .ncolQ h => some h
  | .nrowQ h => some h
  | .keyQ h _ => some h
  | .typeQ h _ => some h
  | .getshpQ h _ => some h
  | .getstrQ h _ _ => some h
  | .getQ h _ => some h
  | .dumptxt h => some h

/-- State transition of one interface call: a failed call leaves the engine
state unchanged, queries never change it. -/
def step (g : Engine) : Op → Engine
  | .newDs => (dset_new g).2
  | .del h => dset_del g h
  | .copy h => match dset_copy g h with | .ok p => p.2 | .error _ => g
  | .addrows h n => match dset_addrows g h n with | .ok g' => g' | .error _ => g
  | .addcolScalar h k t =>
      match dset_addcol_scalar g h k t with | .ok g' => g' | .error _ => g
  | .addcolArray h k t s =>
      match dset_addcol_array g h k t s with | .ok g' => g' | .error _ => g
  | .setstr h k i v =>
      match dset_setstr g h k i v with | .ok g' => g' | .error _ => g
  | .defrag h rs => match dset_defrag g h rs with | .ok g' => g' | .error _ => g
  | .totalszQ _ => g
  | .ncolQ _ => g
  | .nrowQ _ => g
  | .keyQ _ _ => g
  | .typeQ _ _ => g
  | .getshpQ _ _ => g
  | .getstrQ _ _ _ => g
  | .getQ _ _ => g
  | .dumptxt _ => g

/-- Running a whole sequence of interface calls. -/
def runOps (g : Engine) (ops : List Op) : Engine :=
  ops.foldl step g

/-- Well-formedness of one dataset: every column stores exactly the shared row
count and has capacity at least that row count, and column keys are unique. -/
def DsetWF (d : Dataset) : Prop :=
  (∀ c ∈ d.cols, c.body.rows = d.nrow ∧ d.nrow ≤ c.capacity) ∧
  (d.cols.map Column.key).Nodup

/-- Well-formedness of the engine state: every live dataset is well-formed and
its handle is below the allocation counter, handles are unique, and the
counter never reaches the invalid sentinel 0. -/
def EngWF (g : Engine) : Prop :=
  (∀ p ∈ g.table, DsetWF p.2 ∧ p.1 < g.next) ∧
  (g.table.map Prod.fst).Nodup ∧ 0 < g.next

/-- The row-count invariant the specification states as observable: all
columns of every live dataset report the shared row count, and each column's
allocated capacity is at least that row count. -/
def RowInv (g : Engine) : Prop :=
  ∀ p ∈ g.table, ∀ c ∈ p.2.cols, c.body.rows = p.2.nrow ∧ p.2.nrow ≤ c.capacity

instance (d : Dataset) : Decidable (DsetWF d) := by
  unfold DsetWF; exact inferInstance

instance (g : Engine) : Decidable (EngWF g) := by
  unfold EngWF; exact inferInstance

instance (g : Engine) : Decidable (RowInv g) := by
  unfold RowInv; exact inferInstance

/-- A column-creation request: one `addcol_scalar` or `addcol_array` call. -/
inductive ColReq where
  | scalarReq (t : DType)
  | arrayReq (t : DType) (shape : List Nat)
deriving DecidableEq

/-- Validity of the shape of a column-creation request (scalar requests have
no shape to validate). -/
def ColReq.okShape : ColReq → Prop
  | .scalarReq _ => True
  | .arrayReq _ shape => shape ≠ [] ∧ 0 ∉ shape

instance (r : ColReq) : Decidable r.okShape := by
  cases r with
  | scalarReq t => exact .isTrue trivial
  | arrayReq t shape => exact (inferInstance : Decidable (shape ≠ [] ∧ 0 ∉ shape))

/-- The column a successful column-creation request appends, given the
dataset's current row count. -/
def ColReq.mkCol (r : ColReq) (nrow : Nat) (k : String) : Column :=
  match r with
  | .scalarReq t => ⟨k, .scalar t (List.replicate nrow 0), nrow⟩
  | .arrayReq t shape =>
      ⟨k, .arr t shape (List.replicate nrow (List.replicate shape.prod 0)), nrow⟩

/-- The interface call made by one keyed column-creation request. -/
def addcolOp (h : Nat) (s : String × ColReq) : Op :=
  match s.2 with
  | .scalarReq t => .addcolScalar h s.1 t
  | .arrayReq t shape => .addcolArray h s.1 t shape

/-- Running a whole sequence of keyed column-creation calls on one handle. -/
def runAddcols (g : Engine) (h : Nat) (specs : List (String × ColReq)) :
    Engine :=
  runOps g (specs.map (addcolOp h))

theorem findDs_mem {t : List (Nat × Dataset)} {h : Nat} {d : Dataset}
    (hf : findDs t h = some d) : (h, d) ∈ t := by
  induction t with
  | nil => simp [findDs] at hf
  | cons p rest ih =>
    obtain ⟨k, d₀⟩ := p
    by_cases hk : k = h
    · subst hk
      simp [findDs] at hf
      subst hf
      exact List.mem_cons_self _ _
    · simp [findDs, hk] at hf
      exact List.mem_cons_of_mem _ (ih hf)

theorem findDs_none_not_mem {t : List (Nat × Dataset)} {h : Nat}
    (hf : findDs t h = none) : ∀ d, (h, d) ∉ t := by
  induction t with
  | nil => simp
  | cons p rest ih =>
    obtain ⟨k, d₀⟩ := p
    by_cases hk : k = h
    · subst hk; simp [findDs] at hf
    · simp [findDs, hk] at hf
      intro d hd
      rcases List.mem_cons.mp hd with h₁ | h₁
      · exact hk (congrArg Prod.fst h₁).symm
      · exact ih hf d h₁

theorem findDs_update_self {t : List (Nat × Dataset)} {h : Nat} {d d' : Dataset}
    (hf : findDs t h = some d) : findDs (updateDs t h d') h = some d' := by
  induction t with
  | nil => simp [findDs] at hf
  | cons p rest ih =>
    obtain ⟨k, d₀⟩ := p
    by_cases hk : k = h
    · simp [findDs, updateDs, hk]
    · simp [findDs, updateDs, hk] at hf ⊢
      exact ih hf

theorem findDs_update_ne {t : List (Nat × Dataset)} {h h' : Nat} {d' : Dataset}
    (hne : h ≠ h') : findDs (updateDs t h d') h' = findDs t h' := by
  induction t with
  | nil => simp [findDs, updateDs]
  | cons p rest ih =>
    obtain ⟨k, d₀⟩ := p
    by_cases hk : k = h
    · subst hk
      simp [findDs, updateDs, hne]
    · simp [findDs, updateDs, hk]
      by_cases hk' : k = h'
      · simp [hk']
      · simp [hk', ih]

theorem findDs_remove_ne {t : List (Nat × Dataset)} {h h' : Nat}
    (hne : h ≠ h') : findDs (removeDs t h) h' = findDs t h' := by
  induction t with
  | nil => simp [findDs, removeDs]
  | cons p rest ih =>
    obtain ⟨k, d₀⟩ := p
    by_cases hk : k = h
    · subst hk
      simp [findDs, removeDs, hne]
    · simp [findDs, removeDs, hk]
      by_cases hk' : k = h'
      · simp [hk']
      · simp [hk', ih]

theorem removeDs_of_none {t : List (Nat × Dataset)} {h : Nat}
    (hf : findDs t h = none) : removeDs t h = t := by
  induction t with
  | nil => simp [removeDs]
  | cons p rest ih =>
    obtain ⟨k, d₀⟩ := p
    by_cases hk : k = h
    · subst hk; simp [findDs] at hf
    · simp [findDs, hk] at hf
      simp [removeDs, hk, ih hf]

theorem mem_updateDs {t : List (Nat × Dataset)} {h : Nat} {d' : Dataset}
    {p : Nat × Dataset} (hp : p ∈ updateDs t h d') :
    p ∈ t ∨ (p = (h, d') ∧ ∃ d₀, (h, d₀) ∈ t) := by
  induction t with
  | nil => simp [updateDs] at hp
  | cons q rest ih =>
    obtain ⟨k, d₀⟩ := q
    by_cases hk : k = h
    · subst hk
      simp [updateDs] at hp
      rcases hp with h₁ | h₁
      · exact Or.inr ⟨h₁, d₀, List.mem_cons_self _ _⟩
      · exact Or.inl (List.mem_cons_of_mem _ h₁)
    · simp [updateDs, hk] at hp
      rcases hp with h₁ | h₁
      · exact Or.inl (by simp [h₁])
      · rcases ih h₁ with h₂ | ⟨h₂, d₁, h₃⟩
        · exact Or.inl (List.mem_cons_of_mem _ h₂)
        · exact Or.inr ⟨h₂, d₁, List.mem_cons_of_mem _ h₃⟩

theorem mem_removeDs {t : List (Nat × Dataset)} {h : Nat}
    {p : Nat × Dataset} (hp : p ∈ removeDs t h) : p ∈ t := by
  induction t with
  | nil => simp [removeDs] at hp
  | cons q rest ih =>
    obtain ⟨k, d₀⟩ := q
    by_cases hk : k = h
    · subst hk
      simp [removeDs] at hp
      exact List.mem_cons_of_mem _ hp
    · simp [removeDs, hk] at hp
      rcases hp with h₁ | h₁
      · exact List.mem_cons.mpr (Or.inl h₁)
      · exact List.mem_cons_of_mem _ (ih h₁)

theorem keys_updateDs (t : List (Nat × Dataset)) (h : Nat) (d' : Dataset) :
    (updateDs t h d').map Prod.fst = t.map Prod.fst := by
  induction t with
  | nil => simp [updateDs]
  | cons q rest ih =>
    obtain ⟨k, d₀⟩ := q
    by_cases hk : k = h
    · simp [updateDs, hk]
    · simp [updateDs, hk, ih]

theorem nodup_keys_removeDs {t : List (Nat × Dataset)} {h : Nat}
    (hn : (t.map Prod.fst).Nodup) : ((removeDs t h).map Prod.fst).Nodup := by
  induction t with
  | nil => simp [removeDs]
  | cons q rest ih =>
    obtain ⟨k, d₀⟩ := q
    simp at hn
    by_cases hk : k = h
    · subst hk; simpa [removeDs] using hn.2
    · simp [removeDs, hk]
      refine ⟨?_, ih hn.2⟩
      intro a hb
      exact hn.1 a (mem_removeDs hb)

theorem findColIn_mem {cs : List Column} {k : String} {c : Column}
    (hf : findColIn cs k = some c) : c ∈ cs := by
  induction cs with
  | nil => simp [findColIn] at hf
  | cons c₀ rest ih =>
    by_cases hk : c₀.key = k
    · simp [findColIn, hk] at hf
      simp [hf]
    · simp [findColIn, hk] at hf
      exact List.mem_cons_of_mem _ (ih hf)

theorem findColIn_key {cs : List Column} {k : String} {c : Column}
    (hf : findColIn cs k = some c) : c.key = k := by
  induction cs with
  | nil => simp [findColIn] at hf
  | cons c₀ rest ih =>
    by_cases hk : c₀.key = k
    · simp [findColIn, hk] at hf
      simp [← hf, hk]
    · simp [findColIn, hk] at hf
      exact ih hf

theorem findColIn_none {cs : List Column} {k : String}
    (hf : findColIn cs k = none) : ∀ c ∈ cs, c.key ≠ k := by
  induction cs with
  | nil => simp
  | cons c₀ rest ih =>
    by_cases hk : c₀.key = k
    · simp [findColIn, hk] at hf
    · simp [findColIn, hk] at hf
      intro c hc
      rcases List.mem_cons.mp hc with h₁ | h₁
      · subst h₁; exact hk
      · exact ih hf c h₁

theorem findColIn_map {cs : List Column} {k : String} {f : Column → Column}
    (hkey : ∀ c, (f c).key = c.key) :
    findColIn (cs.map f) k = (findColIn cs k).map f := by
  induction cs with
  | nil => simp [findColIn]
  | cons c₀ rest ih =>
    by_cases hk : c₀.key = k
    · simp [findColIn, hkey, hk]
    · simp [findColIn, hkey, hk, ih]

theorem findColIn_update_self {cs : List Column} {k : String} {c c' : Column}
    (hf : findColIn cs k = some c) (hk' : c'.key = k) :
    findColIn (updateColIn cs k c') k = some c' := by
  induction cs with
  | nil => simp [findColIn] at hf
  | cons c₀ rest ih =>
    by_cases hk : c₀.key = k
    · simp [updateColIn, hk, findColIn, hk']
    · simp [findColIn, updateColIn, hk] at hf ⊢
      exact ih hf

theorem findColIn_update_ne {cs : List Column} {k k' : String} {c' : Column}
    (hne : k ≠ k') (hk' : c'.key = k) :
    findColIn (updateColIn cs k c') k' = findColIn cs k' := by
  induction cs with
  | nil => simp [findColIn, updateColIn]
  | cons c₀ rest ih =>
    by_cases hk : c₀.key = k
    · simp [updateColIn, hk, findColIn, hk', hne]
    · simp [updateColIn, hk, findColIn]
      by_cases hc : c₀.key = k'
      · simp [hc]
      · simp [hc, ih]

theorem keys_updateColIn {cs : List Column} {k : String} {c' : Column}
    (hk' : c'.key = k) :
    (updateColIn cs k c').map Column.key = cs.map Column.key := by
  induction cs with
  | nil => simp [updateColIn]
  | cons c₀ rest ih =>
    by_cases hk : c₀.key = k
    · simp [updateColIn, hk, hk']
    · simp [updateColIn, hk, ih]

theorem mem_updateColIn {cs : List Column} {k : String} {c' c : Column}
    (hc : c ∈ updateColIn cs k c') : c ∈ cs ∨ c = c' := by
  induction cs with
  | nil => simp [updateColIn] at hc
  | cons c₀ rest ih =>
    by_cases hk : c₀.key = k
    · simp [updateColIn, hk] at hc
      rcases hc with h₁ | h₁
      · exact Or.inr h₁
      · exact Or.inl (List.mem_cons_of_mem _ h₁)
    · simp [updateColIn, hk] at hc
      rcases hc with h₁ | h₁
      · exact Or.inl (by simp [h₁])
      · rcases ih h₁ with h₂ | h₂
        · exact Or.inl (List.mem_cons_of_mem _ h₂)
        · exact Or.inr h₂

theorem getD_set_of_lt {l : List String} {i : Nat} {a x : String}
    (hi : i < l.length) : (l.set i a).getD i x = a := by
  induction l generalizing i with
  | nil => simp at hi
  | cons b rest ih =>
    cases i with
    | zero => simp
    | succ j =>
      simp at hi
      simpa using ih (by omega)

theorem getD_append_of_lt {l l₂ : List String} {i : Nat} {x : String}
    (hi : i < l.length) : (l ++ l₂).getD i x = l.getD i x := by
  induction l generalizing i with
  | nil => simp at hi
  | cons b rest ih =>
    cases i with
    | zero => simp
    | succ j =>
      simp at hi
      simpa using ih (by omega)

theorem getD_append_replicate_empty {l : List String} {n i : Nat}
    (hi : l.length ≤ i) : (l ++ List.replicate n "").getD i "" = "" := by
  by_cases hlt : i < l.length + n
  · have h₁ : i - l.length < n := by omega
    have h₂ : i < (l ++ List.replicate n ("" : String)).length := by
      simp; omega
    rw [List.getD_eq_getElem?_getD, List.getElem?_append_right hi]
    simp [List.getElem?_replicate, h₁]
  · rw [List.getD_eq_getElem?_getD, List.getElem?_eq_none (by simp; omega)]
    rfl

theorem ColBody.rows_grow (b : ColBody) (n : Nat) :
    (b.grow n).rows = b.rows + n := by
  cases b <;> simp [ColBody.grow, ColBody.rows]

theorem DsetWF_addrows {d : Dataset} (hd : DsetWF d) (n : Nat) :
    DsetWF (d.addrows n) := by
  obtain ⟨hrows, hkeys⟩ := hd
  constructor
  · intro c hc
    simp [Dataset.addrows] at hc
    obtain ⟨c₀, hc₀, hmap⟩ := hc
    obtain ⟨h₁, h₂⟩ := hrows c₀ hc₀
    subst hmap
    simp [Dataset.addrows, ColBody.rows_grow, h₁]
  · have : (d.addrows n).cols.map Column.key = d.cols.map Column.key := by
      simp [Dataset.addrows]
    rw [this]
    exact hkeys

theorem DsetWF_addcolScalar {d d' : Dataset} {k : String} {t : DType}
    (hd : DsetWF d) (hok : d.addcolScalar k t = .ok d') : DsetWF d' := by
  obtain ⟨hrows, hkeys⟩ := hd
  unfold Dataset.addcolScalar at hok
  cases hfind : d.findCol k with
  | some c => rw [hfind] at hok; exact absurd hok (by simp)
  | none =>
    rw [hfind] at hok
    simp at hok
    subst hok
    constructor
    · intro c hc
      simp at hc
      rcases hc with h₁ | h₁
      · exact hrows c h₁
      · subst h₁; simp [ColBody.rows]
    · simp [List.nodup_append]
      refine ⟨hkeys, ?_⟩
      intro c hc hkc
      exact findColIn_none hfind c hc hkc

theorem DsetWF_addcolArray {d d' : Dataset} {k : String} {t : DType}
    {shape : List Nat} (hd : DsetWF d)
    (hok : d.addcolArray k t shape = .ok d') : DsetWF d' := by
  obtain ⟨hrows, hkeys⟩ := hd
  unfold Dataset.addcolArray at hok
  by_cases hsh : shape = [] ∨ 0 ∈ shape
  · rw [if_pos hsh] at hok; exact absurd hok (by simp)
  · rw [if_neg hsh] at hok
    cases hfind : d.findCol k with
    | some c => rw [hfind] at hok; exact absurd hok (by simp)
    | none =>
      rw [hfind] at hok
      simp at hok
      subst hok
      constructor
      · intro c hc
        simp at hc
        rcases hc with h₁ | h₁
        · exact hrows c h₁
        · subst h₁; simp [ColBody.rows]
      · simp [List.nodup_append]
        refine ⟨hkeys, ?_⟩
        intro c hc hkc
        exact findColIn_none hfind c hc hkc

theorem DsetWF_updateStrs {d : Dataset} {k : String} {c : Column}
    {vals : List String} {slack : Nat} (hd : DsetWF d)
    (hfind : d.findCol k = some c) (hb : c.body = .strs vals slack)
    (vals' : List String) (slack' cap' : Nat) (hlen : vals'.length = vals.length)
    (hcap : c.capacity ≤ cap') :
    DsetWF ⟨updateColIn d.cols k ⟨c.key, .strs vals' slack', cap'⟩, d.nrow⟩ := by
  obtain ⟨hrows, hkeys⟩ := hd
  have hck : c.key = k := findColIn_key hfind
  have hcm : c ∈ d.cols := findColIn_mem hfind
  constructor
  · intro c₁ hc₁
    rcases mem_updateColIn hc₁ with h₁ | h₁
    · exact hrows c₁ h₁
    · subst h₁
      obtain ⟨h₂, h₃⟩ := hrows c hcm
      rw [hb] at h₂
      simp [ColBody.rows] at h₂ ⊢
      exact ⟨by rw [hlen]; exact h₂, le_trans h₃ hcap⟩
  · have h₄ : (updateColIn d.cols k
        (⟨c.key, .strs vals' slack', cap'⟩ : Column)).map Column.key =
        d.cols.map Column.key := keys_updateColIn hck
    simpa [h₄] using hkeys

theorem DsetWF_setstr {d d' : Dataset} {k : String} {i : Nat} {v : String}
    (hd : DsetWF d) (hok : d.setstr k i v = .ok d') : DsetWF d' := by
  cases hfind : d.findCol k with
  | none => simp [Dataset.setstr, hfind] at hok
  | some c =>
    cases hb : c.body with
    | scalar t cells => simp [Dataset.setstr, hfind, hb] at hok
    | arr t shape cells => simp [Dataset.setstr, hfind, hb] at hok
    | strs vals slack =>
      by_cases hi : i < d.nrow
      · simp [Dataset.setstr, hfind, hb, hi] at hok
        subst hok
        exact DsetWF_updateStrs hd hfind hb _ _ _ (by simp) le_rfl
      · simp [Dataset.setstr, hfind, hb, hi] at hok

theorem Column.rows_defragCol (rs : Bool) (c : Column) :
    (Column.defragCol rs c).body.rows = c.body.rows := by
  cases hb : c.body <;> simp [Column.defragCol, hb, ColBody.rows]

theorem DsetWF_defrag {d : Dataset} (hd : DsetWF d) (rs : Bool) :
    DsetWF (d.defrag rs) := by
  obtain ⟨hrows, hkeys⟩ := hd
  constructor
  · intro c hc
    simp [Dataset.defrag] at hc
    obtain ⟨c₀, hc₀, hmap⟩ := hc
    obtain ⟨h₁, h₂⟩ := hrows c₀ hc₀
    subst hmap
    constructor
    · simp [Dataset.defrag, Column.rows_defragCol, h₁]
    · cases rs with
      | true => simp [Dataset.defrag, Column.defragCol, h₁]
      | false => simpa [Dataset.defrag, Column.defragCol] using h₂
  · have : (d.defrag rs).cols.map Column.key = d.cols.map Column.key := by
      simp [Dataset.defrag, Column.defragCol]
    rw [this]
    exact hkeys

theorem EngWF_findDs {g : Engine} {h : Nat} {d : Dataset} (hg : EngWF g)
    (hf : findDs g.table h = some d) : DsetWF d ∧ h < g.next :=
  hg.1 (h, d) (findDs_mem hf)

theorem EngWF_update {g : Engine} {h : Nat} {d d' : Dataset} (hg : EngWF g)
    (hf : findDs g.table h = some d) (hd' : DsetWF d') :
    EngWF ⟨updateDs g.table h d', g.next⟩ := by
  obtain ⟨hall, hnd, hpos⟩ := hg
  refine ⟨?_, ?_, hpos⟩
  · intro p hp
    rcases mem_updateDs hp with h₁ | ⟨h₁, d₀, h₂⟩
    · exact hall p h₁
    · subst h₁
      exact ⟨hd', (hall (h, d₀) h₂).2⟩
  · have h₄ := keys_updateDs g.table h d'
    simpa [h₄] using hnd

theorem EngWF_insertFresh {g : Engine} {d : Dataset} (hg : EngWF g)
    (hd : DsetWF d) : EngWF ⟨(g.next, d) :: g.table, g.next + 1⟩ := by
  obtain ⟨hall, hnd, hpos⟩ := hg
  refine ⟨?_, ?_, Nat.succ_pos _⟩
  · intro p hp
    rcases List.mem_cons.mp hp with h₁ | h₁
    · subst h₁
      exact ⟨hd, Nat.lt_succ_self _⟩
    · obtain ⟨h₂, h₃⟩ := hall p h₁
      exact ⟨h₂, Nat.lt_succ_of_lt h₃⟩
  · simp
    refine ⟨?_, hnd⟩
    intro d₀ hd₀
    have := (hall (g.next, d₀) hd₀).2
    omega

theorem EngWF_del {g : Engine} (hg : EngWF g) (h : Nat) :
    EngWF (dset_del g h) := by
  obtain ⟨hall, hnd, hpos⟩ := hg
  refine ⟨?_, ?_, hpos⟩
  · intro p hp
    exact hall p (mem_removeDs hp)
  · exact nodup_keys_removeDs hnd

theorem DsetWF_empty : DsetWF emptyDataset := by
  constructor <;> simp [emptyDataset]

theorem EngWF_mutate {g : Engine} {h : Nat}
    {f : Dataset → Except DsetErr Dataset} (hg : EngWF g)
    (hf : ∀ d d', DsetWF d → f d = .ok d' → DsetWF d') :
    EngWF (match mutateDs g h f with | .ok g' => g' | .error _ => g) := by
  unfold mutateDs
  cases hfd : findDs g.table h with
  | none => simpa using hg
  | some d =>
    cases hres : f d with
    | error e => simpa [hfd, hres] using hg
    | ok d' =>
      simpa [hfd, hres] using
        EngWF_update hg hfd (hf d d' (EngWF_findDs hg hfd).1 hres)

theorem stepWF {g : Engine} (hg : EngWF g) : ∀ op : Op, EngWF (step g op) := by
  intro op
  cases op with
  | newDs => exact EngWF_insertFresh hg DsetWF_empty
  | del h => exact EngWF_del hg h
  | copy h =>
    unfold step dset_copy
    cases hfd : findDs g.table h with
    | none => simpa [hfd] using hg
    | some d =>
      simpa [hfd] using EngWF_insertFresh hg (EngWF_findDs hg hfd).1
  | addrows h n =>
    exact EngWF_mutate hg (fun d d' hd hok => by
      simp at hok
      subst hok
      exact DsetWF_addrows hd n)
  | addcolScalar h k t =>
    exact EngWF_mutate hg (fun d d' hd hok => DsetWF_addcolScalar hd hok)
  | addcolArray h k t s =>
    exact EngWF_mutate hg (fun d d' hd hok => DsetWF_addcolArray hd hok)
  | setstr h k i v =>
    exact EngWF_mutate hg (fun d d' hd hok => DsetWF_setstr hd hok)
  | defrag h rs =>
    exact EngWF_mutate hg (fun d d' hd hok => by
      simp at hok
      subst hok
      exact DsetWF_defrag hd rs)
  | totalszQ h => exact hg
  | ncolQ h => exact hg
  | nrowQ h => exact hg
  | keyQ h i => exact hg
  | typeQ h k => exact hg
  | getshpQ h k => exact hg
  | getstrQ h k i => exact hg
  | getQ h k => exact hg
  | dumptxt h => exact hg

theorem runOpsWF {g : Engine} (hg : EngWF g) (ops : List Op) :
    EngWF (runOps g ops) := by
  induction ops generalizing g with
  | nil => exact hg
  | cons op rest ih => exact ih (stepWF hg op)

theorem EngWF_init : EngWF engineInit := by
  constructor <;> simp [engineInit]

theorem EngWF_RowInv {g : Engine} (hg : EngWF g) : RowInv g := by
  intro p hp c hc
  exact (hg.1 p hp).1.1 c hc

/-- C8: every reachable engine state satisfies the invariant that all columns
of one dataset report the shared row count and every column's allocated row
capacity is at least that row count; moreover every interface operation,
successful or failed, preserves the (strengthened) well-formedness invariant,
so no interleaving of operations can make the row-count invariant observably
false. -/
theorem c8_row_count_invariant :
    (∀ ops : List Op, RowInv (runOps engineInit ops)) ∧
    (∀ (g : Engine) (ops : List Op), EngWF g →
      EngWF (runOps g ops) ∧ RowInv (runOps g ops)) := by
  constructor
  · intro ops
    exact EngWF_RowInv (runOpsWF EngWF_init ops)
  · intro g ops hg
    exact ⟨runOpsWF hg ops, EngWF_RowInv (runOpsWF hg ops)⟩

theorem c8_row_count_invariant_witness :
    EngWF engineInit ∧
    EngWF (runOps engineInit [Op.newDs, Op.addcolScalar 1 "a" DType.i32,
      Op.addrows 1 3]) :=
  ⟨by decide,
   (c8_row_count_invariant.2 engineInit
     [Op.newDs, Op.addcolScalar 1 "a" DType.i32, Op.addrows 1 3]
     (by decide)).1⟩

/-- C1 counterexample: the claim says a second `del(h)` reports the
`UnknownHandle` error and never succeeds silently, but the visible binding
code declares `void dset_del(unsigned long long)` and returns Python `None`
unconditionally, so on the concrete trace new → del → del the second `del`
returns normally (no exception is raised, nothing is reported) while deleting
nothing. -/
theorem c1_second_del_silent :
    (wrap_dset_del (wrap_dset_del (dset_new engineInit).2
        (dset_new engineInit).1).2 (dset_new engineInit).1).1 = PyRes.ok () ∧
    (wrap_dset_del (wrap_dset_del (dset_new engineInit).2
        (dset_new engineInit).1).2 (dset_new engineInit).1).2 =
      (wrap_dset_del (dset_new engineInit).2 (dset_new engineInit).1).2 := by
  constructor <;> rfl

/-- C1 (amended): after `del(h)`, every subsequent engine operation that has a
result channel reports `UnknownHandle` on `h`; a second `del(h)` deletes
nothing but cannot report — `dset_del` is declared void in the visible source
and the binding discards its outcome and returns `None` — and `get` signals
only through a null pointer. -/
theorem c1_dead_handle_amended {g : Engine} {h : Nat}
    (hdead : findDs g.table h = none) :
    wrap_dset_del g h = (PyRes.ok (), g) ∧
    dset_copy g h = .error .UnknownHandle ∧
    dset_totalsz g h = .error .UnknownHandle ∧
    dset_ncol g h = .error .UnknownHandle ∧
    dset_nrow g h = .error .UnknownHandle ∧
    (∀ i, dset_key g h i = .error .UnknownHandle) ∧
    (∀ k, dset_type g h k = .error .UnknownHandle) ∧
    (∀ k, dset_getshp g h k = .error .UnknownHandle) ∧
    (∀ k, wrap_dset_get g h k = PyRes.ok 0) ∧
    (∀ k i, dset_getstr g h k i = .error .UnknownHandle) ∧
    (∀ k i v, dset_setstr g h k i v = .error .UnknownHandle) ∧
    (∀ n, dset_addrows g h n = .error .UnknownHandle) ∧
    (∀ k t, dset_addcol_scalar g h k t = .error .UnknownHandle) ∧
    (∀ k t s, dset_addcol_array g h k t s = .error .UnknownHandle) ∧
    (∀ rs, dset_defrag g h rs = .error .UnknownHandle) := by
  have hdel : dset_del g h = g := by
    simp [dset_del, removeDs_of_none hdead]
  refine ⟨by simp [wrap_dset_del, hdel], ?_, ?_, ?_, ?_, ?_, ?_, ?_, ?_, ?_,
    ?_, ?_, ?_, ?_, ?_⟩ <;>
    intros <;>
    simp [dset_copy, dset_totalsz, dset_ncol, dset_nrow, dset_key, dset_type,
      dset_getshp, wrap_dset_get, dset_get, dset_getstr, dset_setstr,
      dset_addrows, dset_addcol_scalar, dset_addcol_array, dset_defrag,
      queryDs, mutateDs, hdead]

theorem c1_dead_handle_amended_witness :
    findDs engineInit.table 1 = none ∧
    wrap_dset_del engineInit 1 = (PyRes.ok (), engineInit) ∧
    dset_nrow engineInit 1 = .error .UnknownHandle :=
  ⟨by decide,
   (c1_dead_handle_amended (g := engineInit) (h := 1) (by decide)).1,
   (c1_dead_handle_amended (g := engineInit) (h := 1) (by decide)).2.2.2.2.1⟩

/-- C6: on a live handle with a fresh key, `addcol_array` fails with
`InvalidShape` whenever the shape is the empty sequence or contains a
zero-sized dimension, and in that case the engine state — in particular the
column list — is left unchanged. -/
theorem c6_invalid_shape {g : Engine} {h : Nat} {d : Dataset} {k : String}
    {t : DType} {shape : List Nat}
    (hlive : findDs g.table h = some d) (hfresh : d.findCol k = none)
    (hbad : shape = [] ∨ 0 ∈ shape) :
    dset_addcol_array g h k t shape = .error .InvalidShape ∧
    step g (.addcolArray h k t shape) = g := by
  have herr : d.addcolArray k t shape = .error .InvalidShape := by
    simp [Dataset.addcolArray, hbad]
  constructor
  · simp [dset_addcol_array, mutateDs, hlive, herr]
  · simp [step, dset_addcol_array, mutateDs, hlive, herr]

theorem c6_invalid_shape_witness :
    findDs ({ table := [(1, emptyDataset)], next := 2 } : Engine).table 1 =
      some emptyDataset ∧
    emptyDataset.findCol "x" = none ∧
    dset_addcol_array ⟨[(1, emptyDataset)], 2⟩ 1 "x" DType.f32 [0, 3] =
      .error .InvalidShape ∧
    dset_addcol_array ⟨[(1, emptyDataset)], 2⟩ 1 "x" DType.f32 [] =
      .error .InvalidShape :=
  ⟨by decide, by decide,
   (@c6_invalid_shape ⟨[(1, emptyDataset)], 2⟩ 1 emptyDataset "x" DType.f32
     [0, 3] (by decide) (by decide) (by decide)).1,
   (@c6_invalid_shape ⟨[(1, emptyDataset)], 2⟩ 1 emptyDataset "x" DType.f32
     [] (by decide) (by decide) (by decide)).1⟩

/-- C9: the binding wrapper of `get` always returns the engine's raw buffer
pointer converted to a plain integer and never raises; in particular when the
engine signals failure by a null pointer (unknown handle or unknown column
key) the caller receives the integer 0, indistinguishable from a result
except by comparing against 0. -/
theorem c9_get_raw_pointer :
    (∀ (g : Engine) (h : Nat) (k : String),
      wrap_dset_get g h k = PyRes.ok (dset_get g h k)) ∧
    (∀ (g : Engine) (h : Nat) (k : String),
      findDs g.table h = none → wrap_dset_get g h k = PyRes.ok 0) ∧
    (∀ (g : Engine) (h : Nat) (k : String) (d : Dataset),
      findDs g.table h = some d → d.findCol k = none →
      wrap_dset_get g h k = PyRes.ok 0) := by
  refine ⟨fun g h k => rfl, ?_, ?_⟩
  · intro g h k hdead
    simp [wrap_dset_get, dset_get, hdead]
  · intro g h k d hlive hnone
    simp [wrap_dset_get, dset_get, hlive, hnone]

theorem c9_get_raw_pointer_witness :
    findDs engineInit.table 7 = none ∧
    wrap_dset_get engineInit 7 "a" = PyRes.ok 0 :=
  ⟨by decide, c9_get_raw_pointer.2.1 engineInit 7 "a" (by decide)⟩

/-- C10: the binding wrapper of `addcol_array` accepts the shape argument only
as a contiguous numpy array of element type uint8, raising ValueError before
reaching the engine (state unchanged) for any other element type or a
non-contiguous array; when the checks pass the engine receives the raw bytes
as the shape, so every per-dimension extent expressible through this
interface is at most 255. -/
theorem c10_shape_uint8_contiguous :
    (∀ (g : Engine) (h : Nat) (k : String) (t : DType) (a : NpyArray),
      a.dtype ≠ NpyDType.uint8 →
      wrap_dset_addcol_array g h k t a =
        (PyRes.exn (.valueError
          "Invalid data type for argument shape (expected const uint8_t *)"),
         g)) ∧
    (∀ (g : Engine) (h : Nat) (k : String) (t : DType) (a : NpyArray),
      a.dtype = NpyDType.uint8 → a.contiguous = false →
      wrap_dset_addcol_array g h k t a =
        (PyRes.exn (.valueError "Argument shape is not contiguous"), g)) ∧
    (∀ (g : Engine) (h : Nat) (k : String) (t : DType) (a : NpyArray),
      a.dtype = NpyDType.uint8 → a.contiguous = true →
      (wrap_dset_addcol_array g h k t a =
        match dset_addcol_array g h k t (a.bytes.map Fin.val) with
        | .ok g' => (PyRes.ok 0, g')
        | .error e => (PyRes.ok (statusInt e), g)) ∧
      (∀ x ∈ a.bytes.map Fin.val, x ≤ 255)) := by
  refine ⟨?_, ?_, ?_⟩
  · intro g h k t a hne
    simp [wrap_dset_addcol_array, hne]
  · intro g h k t a hu hc
    simp [wrap_dset_addcol_array, hu, hc]
  · intro g h k t a hu hc
    constructor
    · simp [wrap_dset_addcol_array, hu, hc]
    · intro x hx
      simp at hx
      obtain ⟨b, _, hb⟩ := hx
      omega

theorem c10_shape_uint8_contiguous_witness :
    (({ dtype := NpyDType.float64, contiguous := true, bytes := [] } :
        NpyArray).dtype ≠ NpyDType.uint8) ∧
    wrap_dset_addcol_array engineInit 1 "x" DType.f32
        ⟨NpyDType.float64, true, []⟩ =
      (PyRes.exn (.valueError
        "Invalid data type for argument shape (expected const uint8_t *)"),
       engineInit) :=
  ⟨by decide,
   c10_shape_uint8_contiguous.1 engineInit 1 "x" DType.f32
     ⟨NpyDType.float64, true, []⟩ (by decide)⟩

theorem Dataset.setstr_getstr {d : Dataset} {k : String} {c : Column}
    {vals : List String} {slack : Nat} {i : Nat}
    (hd : DsetWF d) (hcol : d.findCol k = some c)
    (hstr : c.body = .strs vals slack) (hi : i < d.nrow) (v : String) :
    ∃ d', d.setstr k i v = .ok d' ∧ d'.getstr k i = .ok v := by
  have hck : c.key = k := findColIn_key hcol
  have hcm : c ∈ d.cols := findColIn_mem hcol
  have hvlen : vals.length = d.nrow := by
    have h₁ := (hd.1 c hcm).1
    rw [hstr] at h₁
    simpa [ColBody.rows] using h₁
  refine ⟨⟨updateColIn d.cols k
      ⟨c.key, .strs (vals.set i v) (slack + (vals.getD i "").length + 1),
       c.capacity⟩, d.nrow⟩, ?_, ?_⟩
  · simp [Dataset.setstr, hcol, hstr, hi]
  · have hc₁ : findColIn (updateColIn d.cols k
        ⟨c.key, .strs (vals.set i v) (slack + (vals.getD i "").length + 1),
         c.capacity⟩) k = some
        ⟨c.key, .strs (vals.set i v) (slack + (vals.getD i "").length + 1),
         c.capacity⟩ := findColIn_update_self hcol hck
    simp only [List.getD_eq_getElem?_getD] at hc₁
    simp [Dataset.getstr, Dataset.findCol, hc₁, hi]
    rw [← List.getD_eq_getElem?_getD]
    exact getD_set_of_lt (by omega)

/-- C4: on a live handle, for every String column, every row index below the
row count, and every value (including the empty string), `setstr` followed by
`getstr` at the same cell returns exactly the value that was stored. -/
theorem c4_setstr_getstr_roundtrip {g : Engine} {h : Nat} {d : Dataset}
    {k : String} {c : Column} {vals : List String} {slack : Nat} {i : Nat}
    (hg : EngWF g) (hlive : findDs g.table h = some d)
    (hcol : d.findCol k = some c) (hstr : c.body = .strs vals slack)
    (hi : i < d.nrow) (v : String) :
    ∃ g', dset_setstr g h k i v = .ok g' ∧ dset_getstr g' h k i = .ok v := by
  obtain ⟨d', hset, hget⟩ :=
    Dataset.setstr_getstr (EngWF_findDs hg hlive).1 hcol hstr hi v
  refine ⟨⟨updateDs g.table h d', g.next⟩, ?_, ?_⟩
  · simp [dset_setstr, mutateDs, hlive, hset]
  · simp [dset_getstr, queryDs, findDs_update_self hlive, hget]

theorem c4_setstr_getstr_roundtrip_witness :
    EngWF ⟨[(1, ⟨[⟨"s", ColBody.strs ["old"] 0, 1⟩], 1⟩)], 2⟩ ∧
    (∃ g', dset_setstr ⟨[(1, ⟨[⟨"s", ColBody.strs ["old"] 0, 1⟩], 1⟩)], 2⟩
        1 "s" 0 "hello" = .ok g' ∧
      dset_getstr g' 1 "s" 0 = .ok "hello") ∧
    (∃ g', dset_setstr ⟨[(1, ⟨[⟨"s", ColBody.strs ["old"] 0, 1⟩], 1⟩)], 2⟩
        1 "s" 0 "" = .ok g' ∧
      dset_getstr g' 1 "s" 0 = .ok "") :=
  ⟨by decide,
   @c4_setstr_getstr_roundtrip ⟨[(1, ⟨[⟨"s", ColBody.strs ["old"] 0, 1⟩], 1⟩)],
       2⟩ 1 ⟨[⟨"s", ColBody.strs ["old"] 0, 1⟩], 1⟩ "s"
     ⟨"s", ColBody.strs ["old"] 0, 1⟩ ["old"] 0 0
     (by decide) (by decide) (by decide) (by decide) (by decide) "hello",
   @c4_setstr_getstr_roundtrip ⟨[(1, ⟨[⟨"s", ColBody.strs ["old"] 0, 1⟩], 1⟩)],
       2⟩ 1 ⟨[⟨"s", ColBody.strs ["old"] 0, 1⟩], 1⟩ "s"
     ⟨"s", ColBody.strs ["old"] 0, 1⟩ ["old"] 0 0
     (by decide) (by decide) (by decide) (by decide) (by decide) ""⟩


theorem Dataset.getstr_addrows_old {d : Dataset} {k : String} {i : Nat}
    (hd : DsetWF d) (n : Nat) (hi : i < d.nrow) :
    (d.addrows n).getstr k i = d.getstr k i := by
  have hmap : (d.addrows n).findCol k = (d.findCol k).map
      (fun c => ⟨c.key, c.body.grow n, max c.capacity (d.nrow + n)⟩) :=
    findColIn_map (fun c => rfl)
  unfold Dataset.getstr
  rw [hmap]
  cases hfc : d.findCol k with
  | none => simp
  | some c =>
    have hcm : c ∈ d.cols := findColIn_mem hfc
    cases hb : c.body with
    | scalar t cells => simp [hb, ColBody.grow]
    | arr t shape cells => simp [hb, ColBody.grow]
    | strs vals slack =>
      have hvlen : vals.length = d.nrow := by
        have h₁ := (hd.1 c hcm).1
        rw [hb] at h₁
        simpa [ColBody.rows] using h₁
      have hgd : (vals ++ List.replicate n "").getD i "" = vals.getD i "" :=
        getD_append_of_lt (by omega)
      simp only [List.getD_eq_getElem?_getD] at hgd
      simp [hb, ColBody.grow, hi, Dataset.addrows, show i < d.nrow + n by omega,
        hgd]

theorem Dataset.getstr_addrows_new {d : Dataset} {k : String} {c : Column}
    {vals : List String} {slack : Nat} {i : Nat}
    (hd : DsetWF d) (n : Nat) (hcol : d.findCol k = some c)
    (hb : c.body = .strs vals slack) (hlo : d.nrow ≤ i) (hhi : i < d.nrow + n) :
    (d.addrows n).getstr k i = .ok "" := by
  have hmap : (d.addrows n).findCol k = (d.findCol k).map
      (fun c => ⟨c.key, c.body.grow n, max c.capacity (d.nrow + n)⟩) :=
    findColIn_map (fun c => rfl)
  have hcm : c ∈ d.cols := findColIn_mem hcol
  have hvlen : vals.length = d.nrow := by
    have h₁ := (hd.1 c hcm).1
    rw [hb] at h₁
    simpa [ColBody.rows] using h₁
  have hgd : (vals ++ List.replicate n "").getD i "" = "" :=
    getD_append_replicate_empty (by omega)
  simp only [List.getD_eq_getElem?_getD] at hgd
  unfold Dataset.getstr
  rw [hmap, hcol]
  simp [hb, ColBody.grow, Dataset.addrows, hhi, hgd]

/-- C2: on a live handle, `addrows(h, n)` succeeds, increases `nrow` by
exactly `n`, keeps `ncol` unchanged, appends `n` zero-initialized row-slots at
the end of every existing scalar/array column buffer and `n` empty strings at
the end of every string column while leaving all prior row contents unchanged
(stated per buffer and observed through `getstr` for string cells), and any
failed `addrows` leaves the engine state entirely unchanged (all-or-nothing). -/
theorem c2_addrows {g : Engine} {h : Nat} {d : Dataset} (hg : EngWF g)
    (hlive : findDs g.table h = some d) (n : Nat) :
    (∃ g' : Engine, dset_addrows g h n = .ok g' ∧
      dset_nrow g' h = .ok (d.nrow + n) ∧
      dset_ncol g' h = .ok d.cols.length ∧
      (∃ d' : Dataset, findDs g'.table h = some d' ∧ d'.nrow = d.nrow + n ∧
        d'.cols.length = d.cols.length ∧
        (∀ (i : Nat) (c : Column), d.cols[i]? = some c →
          ∃ c' : Column, d'.cols[i]? = some c' ∧
          Column.key c' = Column.key c ∧
          (∀ (t : DType) (cells : List Int),
            Column.body c = ColBody.scalar t cells →
            Column.body c' = ColBody.scalar t (cells ++ List.replicate n 0)) ∧
          (∀ (t : DType) (shape : List Nat) (cells : List (List Int)),
            Column.body c = ColBody.arr t shape cells →
            Column.body c' = ColBody.arr t shape
              (cells ++ List.replicate n (List.replicate shape.prod 0))) ∧
          (∀ (vals : List String) (slack : Nat),
            Column.body c = ColBody.strs vals slack →
            Column.body c' = ColBody.strs (vals ++ List.replicate n "") slack)) ∧
        (∀ (k : String) (i : Nat), i < d.nrow →
          d'.getstr k i = d.getstr k i) ∧
        (∀ (k : String) (i : Nat) (c : Column) (vals : List String)
          (slack : Nat), d.nrow ≤ i → i < d.nrow + n →
          d.findCol k = some c → Column.body c = ColBody.strs vals slack →
          d'.getstr k i = .ok ""))) ∧
    (∀ (g₀ : Engine) (h₀ n₀ : Nat) (e : DsetErr),
      dset_addrows g₀ h₀ n₀ = .error e → step g₀ (.addrows h₀ n₀) = g₀) := by
  have hd : DsetWF d := (EngWF_findDs hg hlive).1
  constructor
  · refine ⟨⟨updateDs g.table h (d.addrows n), g.next⟩, ?_, ?_, ?_, ?_⟩
    · simp [dset_addrows, mutateDs, hlive]
    · simp [dset_nrow, queryDs, findDs_update_self hlive, Dataset.addrows]
    · simp [dset_ncol, queryDs, findDs_update_self hlive, Dataset.addrows]
    · refine ⟨d.addrows n, findDs_update_self hlive, rfl, ?_, ?_, ?_, ?_⟩
      · simp [Dataset.addrows]
      · intro i c hc
        refine ⟨⟨c.key, c.body.grow n, max c.capacity (d.nrow + n)⟩, ?_, rfl,
          ?_, ?_, ?_⟩
        · have : (d.addrows n).cols[i]? =
              (d.cols[i]?).map (fun c =>
                ⟨c.key, c.body.grow n, max c.capacity (d.nrow + n)⟩) :=
            List.getElem?_map _ _ _
          rw [this, hc]
          rfl
        · intro t cells hb
          simp [hb, ColBody.grow]
        · intro t shape cells hb
          simp [hb, ColBody.grow]
        · intro vals slack hb
          simp [hb, ColBody.grow]
      · intro k i hi
        exact Dataset.getstr_addrows_old hd n hi
      · intro k i c vals slack hlo hhi hcol hb
        exact Dataset.getstr_addrows_new hd n hcol hb hlo hhi
  · intro g₀ h₀ n₀ e herr
    unfold dset_addrows mutateDs at herr
    unfold step dset_addrows mutateDs
    cases hfd : findDs g₀.table h₀ with
    | none => simp [hfd]
    | some d₀ => rw [hfd] at herr; simp at herr

theorem c2_addrows_witness :
    EngWF ⟨[(1, ⟨[⟨"a", ColBody.scalar DType.i32 [5], 1⟩,
                  ⟨"s", ColBody.strs ["x"] 0, 1⟩], 1⟩)], 2⟩ ∧
    findDs ({ table := [(1, ⟨[⟨"a", ColBody.scalar DType.i32 [5], 1⟩,
                  ⟨"s", ColBody.strs ["x"] 0, 1⟩], 1⟩)], next := 2 } :
        Engine).table 1 =
      some ⟨[⟨"a", ColBody.scalar DType.i32 [5], 1⟩,
             ⟨"s", ColBody.strs ["x"] 0, 1⟩], 1⟩ ∧
    (∃ g' : Engine,
      dset_addrows ⟨[(1, ⟨[⟨"a", ColBody.scalar DType.i32 [5], 1⟩,
          ⟨"s", ColBody.strs ["x"] 0, 1⟩], 1⟩)], 2⟩ 1 2 = .ok g' ∧
      dset_nrow g' 1 = .ok (1 + 2)) :=
  ⟨by decide, by decide, by
    obtain ⟨⟨g', h₁, h₂, _⟩, _⟩ :=
      c2_addrows (g := ⟨[(1, ⟨[⟨"a", ColBody.scalar DType.i32 [5], 1⟩,
          ⟨"s", ColBody.strs ["x"] 0, 1⟩], 1⟩)], 2⟩) (h := 1)
        (d := ⟨[⟨"a", ColBody.scalar DType.i32 [5], 1⟩,
          ⟨"s", ColBody.strs ["x"] 0, 1⟩], 1⟩) (by decide) (by decide) 2
    exact ⟨g', h₁, h₂⟩⟩

theorem Column.size_defragCol_le {c : Column} {m : Nat}
    (hrows : c.body.rows = m) (hcap : m ≤ c.capacity) :
    (Column.defragCol true c).size ≤ c.size := by
  cases hb : c.body with
  | scalar t cells =>
    rw [hb] at hrows
    simp [ColBody.rows] at hrows
    simp [Column.defragCol, hb, Column.size, ColBody.rows]
    exact Nat.mul_le_mul (by omega) le_rfl
  | arr t shape cells =>
    rw [hb] at hrows
    simp [ColBody.rows] at hrows
    simp [Column.defragCol, hb, Column.size, ColBody.rows]
    exact Nat.mul_le_mul (Nat.mul_le_mul (by omega) le_rfl) le_rfl
  | strs vals slack =>
    simp [Column.defragCol, hb, Column.size, ColBody.rows]

theorem Dataset.totalsz_defrag_le {d : Dataset} (hd : DsetWF d) :
    (d.defrag true).totalsz ≤ d.totalsz := by
  unfold Dataset.totalsz
  have hcols : (d.defrag true).cols = d.cols.map (Column.defragCol true) := rfl
  rw [hcols, List.map_map]
  apply List.sum_le_sum
  intro c hc
  exact Column.size_defragCol_le (hd.1 c hc).1 (hd.1 c hc).2

theorem Dataset.getstr_defrag (d : Dataset) (rs : Bool) (k : String)
    (i : Nat) : (d.defrag rs).getstr k i = d.getstr k i := by
  have hmap : (d.defrag rs).findCol k =
      (d.findCol k).map (Column.defragCol rs) :=
    findColIn_map (fun c => rfl)
  unfold Dataset.getstr
  rw [hmap]
  cases hfc : d.findCol k with
  | none => simp
  | some c =>
    cases hb : c.body with
    | scalar t cells => simp [Column.defragCol, hb]
    | arr t shape cells => simp [Column.defragCol, hb]
    | strs vals slack => simp [Column.defragCol, hb, Dataset.defrag]

theorem ColBody.typeTag_defragCol (rs : Bool) (c : Column) :
    (Column.defragCol rs c).body.typeTag = c.body.typeTag := by
  cases hb : c.body <;> simp [Column.defragCol, hb, ColBody.typeTag]

theorem ColBody.rank_defragCol (rs : Bool) (c : Column) :
    (Column.defragCol rs c).body.rank = c.body.rank := by
  cases hb : c.body <;> simp [Column.defragCol, hb, ColBody.rank]

theorem Dataset.typeOf_defrag (d : Dataset) (rs : Bool) (k : String) :
    (d.defrag rs).typeOf k = d.typeOf k := by
  have hmap : (d.defrag rs).findCol k =
      (d.findCol k).map (Column.defragCol rs) :=
    findColIn_map (fun c => rfl)
  unfold Dataset.typeOf
  rw [hmap]
  cases hfc : d.findCol k with
  | none => simp
  | some c => simp [ColBody.typeTag_defragCol]

theorem Dataset.getshpOf_defrag (d : Dataset) (rs : Bool) (k : String) :
    (d.defrag rs).getshpOf k = d.getshpOf k := by
  have hmap : (d.defrag rs).findCol k =
      (d.findCol k).map (Column.defragCol rs) :=
    findColIn_map (fun c => rfl)
  unfold Dataset.getshpOf
  rw [hmap]
  cases hfc : d.findCol k with
  | none => simp
  | some c => simp [ColBody.rank_defragCol]

theorem Dataset.keyAt_defrag (d : Dataset) (rs : Bool) (i : Nat) :
    (d.defrag rs).keyAt i = d.keyAt i := by
  unfold Dataset.keyAt
  have hmap : (d.defrag rs).cols[i]? =
      (d.cols[i]?).map (Column.defragCol rs) :=
    List.getElem?_map _ _ _
  rw [hmap]
  cases d.cols[i]? <;> simp [Column.defragCol]

/-- C5: on a live handle, `defrag(h, true)` succeeds and leaves every
observable content query unchanged — `ncol`, `nrow`, every column key, type
and rank, every string value, and every scalar/array cell buffer — while
`totalsz(h)` afterwards is less than or equal to `totalsz(h)` before the
call. -/
theorem c5_defrag {g : Engine} {h : Nat} {d : Dataset} (hg : EngWF g)
    (hlive : findDs g.table h = some d) :
    ∃ g' : Engine, dset_defrag g h true = .ok g' ∧
      dset_ncol g' h = .ok d.cols.length ∧
      dset_nrow g' h = .ok d.nrow ∧
      (∀ i : Nat, dset_key g' h i = dset_key g h i) ∧
      (∀ k : String, dset_type g' h k = dset_type g h k) ∧
      (∀ k : String, dset_getshp g' h k = dset_getshp g h k) ∧
      (∀ (k : String) (i : Nat), dset_getstr g' h k i = dset_getstr g h k i) ∧
      (∃ d' : Dataset, findDs g'.table h = some d' ∧
        (∀ (i : Nat) (c : Column), d.cols[i]? = some c →
          ∃ c' : Column, d'.cols[i]? = some c' ∧
            Column.key c' = Column.key c ∧
            (∀ (t : DType) (cells : List Int),
              Column.body c = ColBody.scalar t cells →
              Column.body c' = ColBody.scalar t cells) ∧
            (∀ (t : DType) (shape : List Nat) (cells : List (List Int)),
              Column.body c = ColBody.arr t shape cells →
              Column.body c' = ColBody.arr t shape cells) ∧
            (∀ (vals : List String) (slack : Nat),
              Column.body c = ColBody.strs vals slack →
              Column.body c' = ColBody.strs vals 0))) ∧
      (∀ sz sz' : Nat, dset_totalsz g h = .ok sz →
        dset_totalsz g' h = .ok sz' → sz' ≤ sz) := by
  have hd : DsetWF d := (EngWF_findDs hg hlive).1
  refine ⟨⟨updateDs g.table h (d.defrag true), g.next⟩, ?_, ?_, ?_, ?_, ?_,
    ?_, ?_, ?_, ?_⟩
  · simp [dset_defrag, mutateDs, hlive]
  · simp [dset_ncol, queryDs, findDs_update_self hlive, Dataset.defrag]
  · simp [dset_nrow, queryDs, findDs_update_self hlive, Dataset.defrag]
  · intro i
    simp [dset_key, queryDs, findDs_update_self hlive, hlive,
      Dataset.keyAt_defrag]
  · intro k
    simp [dset_type, queryDs, findDs_update_self hlive, hlive,
      Dataset.typeOf_defrag]
  · intro k
    simp [dset_getshp, queryDs, findDs_update_self hlive, hlive,
      Dataset.getshpOf_defrag]
  · intro k i
    simp [dset_getstr, queryDs, findDs_update_self hlive, hlive,
      Dataset.getstr_defrag]
  · refine ⟨d.defrag true, findDs_update_self hlive, ?_⟩
    intro i c hc
    refine ⟨Column.defragCol true c, ?_, rfl, ?_, ?_, ?_⟩
    · have hmap : (d.defrag true).cols[i]? =
          (d.cols[i]?).map (Column.defragCol true) :=
        List.getElem?_map _ _ _
      rw [hmap, hc]
      rfl
    · intro t cells hb
      simp [Column.defragCol, hb]
    · intro t shape cells hb
      simp [Column.defragCol, hb]
    · intro vals slack hb
      simp [Column.defragCol, hb]
  · intro sz sz' h₁ h₂
    simp [dset_totalsz, queryDs, hlive] at h₁
    simp [dset_totalsz, queryDs, findDs_update_self hlive] at h₂
    subst h₁
    subst h₂
    exact Dataset.totalsz_defrag_le hd

theorem c5_defrag_witness :
    EngWF ⟨[(1, ⟨[⟨"a", ColBody.scalar DType.i32 [5], 4⟩,
                  ⟨"s", ColBody.strs ["x"] 7, 1⟩], 1⟩)], 2⟩ ∧
    (∃ g' : Engine,
      dset_defrag ⟨[(1, ⟨[⟨"a", ColBody.scalar DType.i32 [5], 4⟩,
          ⟨"s", ColBody.strs ["x"] 7, 1⟩], 1⟩)], 2⟩ 1 true = .ok g' ∧
      dset_ncol g' 1 = .ok 2 ∧
      dset_nrow g' 1 = .ok 1) :=
  ⟨by decide, by
    obtain ⟨g', h₁, h₂, h₃, _⟩ :=
      c5_defrag (g := ⟨[(1, ⟨[⟨"a", ColBody.scalar DType.i32 [5], 4⟩,
          ⟨"s", ColBody.strs ["x"] 7, 1⟩], 1⟩)], 2⟩) (h := 1)
        (d := ⟨[⟨"a", ColBody.scalar DType.i32 [5], 4⟩,
          ⟨"s", ColBody.strs ["x"] 7, 1⟩], 1⟩) (by decide) (by decide)
    exact ⟨g', h₁, h₂, h₃⟩⟩

theorem findDs_mutate_other {g : Engine} {h h' : Nat} {d : Dataset}
    {f : Dataset → Except DsetErr Dataset}
    (hfd : findDs g.table h' = some d) (hne : h ≠ h') :
    findDs (match mutateDs g h f with
      | .ok g' => g' | .error _ => g).table h' = some d := by
  unfold mutateDs
  cases hl : findDs g.table h with
  | none => simpa using hfd
  | some d₀ =>
    cases hr : f d₀ with
    | ok d₁ => simpa [hr, findDs_update_ne hne] using hfd
    | error e => simpa [hr] using hfd

theorem findDs_step_other {g : Engine} {h' : Nat} {d : Dataset} {op : Op}
    (hg : EngWF g) (hfd : findDs g.table h' = some d)
    (hne : op.target ≠ some h') :
    findDs (step g op).table h' = some d := by
  have hlt : h' < g.next := (hg.1 (h', d) (findDs_mem hfd)).2
  cases op with
  | newDs =>
    simp [step, dset_new, findDs, show ¬g.next = h' by omega, hfd]
  | del h =>
    have hneq : h ≠ h' := by simpa [Op.target] using hne
    simp [step, dset_del]
    rw [findDs_remove_ne hneq]
    exact hfd
  | copy h =>
    unfold step dset_copy
    cases hfd₂ : findDs g.table h with
    | none => simpa [hfd₂] using hfd
    | some dh =>
      simp [hfd₂, findDs, show ¬g.next = h' by omega, hfd]
  | addrows h n =>
    exact findDs_mutate_other hfd (by simpa [Op.target] using hne)
  | addcolScalar h k t =>
    exact findDs_mutate_other hfd (by simpa [Op.target] using hne)
  | addcolArray h k t s =>
    exact findDs_mutate_other hfd (by simpa [Op.target] using hne)
  | setstr h k i v =>
    exact findDs_mutate_other hfd (by simpa [Op.target] using hne)
  | defrag h rs =>
    exact findDs_mutate_other hfd (by simpa [Op.target] using hne)
  | totalszQ h => exact hfd
  | ncolQ h => exact hfd
  | nrowQ h => exact hfd
  | keyQ h i => exact hfd
  | typeQ h k => exact hfd
  | getshpQ h k => exact hfd
  | getstrQ h k i => exact hfd
  | getQ h k => exact hfd
  | dumptxt h => exact hfd

theorem findDs_runOps_other {h' : Nat} {d : Dataset} :
    ∀ (ops : List Op) (g : Engine), EngWF g → findDs g.table h' = some d →
    (∀ op ∈ ops, op.target ≠ some h') →
    findDs (runOps g ops).table h' = some d := by
  intro ops
  induction ops with
  | nil =>
    intro g hg hfd _
    simpa [runOps] using hfd
  | cons op rest ih =>
    intro g hg hfd hne
    exact ih (step g op) (stepWF hg op)
      (findDs_step_other hg hfd (hne op (List.mem_cons_self _ _)))
      (fun o ho => hne o (List.mem_cons_of_mem _ ho))

/-- C3: on a live handle, `copy(h)` returns a fresh handle `h'` distinct from
`h` under which the very same dataset value is stored, so every observable
query (`ncol`, `nrow`, per-column key/type/rank, every string cell) on `h'`
equals the same query on `h` at the time of the copy; and any sequence of
subsequent operations applied to `h` leaves the dataset of `h'` unchanged,
and vice versa (deep copy, no aliasing). -/
theorem c3_copy_independent {g : Engine} {h : Nat} {d : Dataset}
    (hg : EngWF g) (hlive : findDs g.table h = some d) :
    ∃ (h' : Nat) (g' : Engine), dset_copy g h = .ok (h', g') ∧ h' ≠ h ∧
      findDs g'.table h' = some d ∧ findDs g'.table h = some d ∧
      dset_ncol g' h' = dset_ncol g' h ∧
      dset_nrow g' h' = dset_nrow g' h ∧
      dset_totalsz g' h' = dset_totalsz g' h ∧
      (∀ i : Nat, dset_key g' h' i = dset_key g' h i) ∧
      (∀ k : String, dset_type g' h' k = dset_type g' h k) ∧
      (∀ k : String, dset_getshp g' h' k = dset_getshp g' h k) ∧
      (∀ (k : String) (i : Nat),
        dset_getstr g' h' k i = dset_getstr g' h k i) ∧
      (∀ ops : List Op, (∀ op ∈ ops, op.target = some h) →
        findDs (runOps g' ops).table h' = some d) ∧
      (∀ ops : List Op, (∀ op ∈ ops, op.target = some h') →
        findDs (runOps g' ops).table h = some d) := by
  have hlt : h < g.next := (hg.1 (h, d) (findDs_mem hlive)).2
  have hcopy : dset_copy g h =
      .ok (g.next, ⟨(g.next, d) :: g.table, g.next + 1⟩) := by
    simp [dset_copy, hlive]
  have hg' : EngWF (⟨(g.next, d) :: g.table, g.next + 1⟩ : Engine) :=
    EngWF_insertFresh hg (EngWF_findDs hg hlive).1
  have hfd' : findDs ((⟨(g.next, d) :: g.table, g.next + 1⟩ :
      Engine)).table g.next = some d := by
    simp [findDs]
  have hfdh : findDs ((⟨(g.next, d) :: g.table, g.next + 1⟩ :
      Engine)).table h = some d := by
    simp [findDs, show ¬g.next = h by omega, hlive]
  refine ⟨g.next, ⟨(g.next, d) :: g.table, g.next + 1⟩, hcopy,
    by omega, hfd', hfdh, ?_, ?_, ?_, ?_, ?_, ?_, ?_, ?_, ?_⟩
  · simp [dset_ncol, queryDs, hfd', hfdh]
  · simp [dset_nrow, queryDs, hfd', hfdh]
  · simp [dset_totalsz, queryDs, hfd', hfdh]
  · intro i
    simp [dset_key, queryDs, hfd', hfdh]
  · intro k
    simp [dset_type, queryDs, hfd', hfdh]
  · intro k
    simp [dset_getshp, queryDs, hfd', hfdh]
  · intro k i
    simp [dset_getstr, queryDs, hfd', hfdh]
  · intro ops hall
    exact findDs_runOps_other ops _ hg' hfd'
      (fun op ho => by rw [hall op ho]; simp; omega)
  · intro ops hall
    exact findDs_runOps_other ops _ hg' hfdh
      (fun op ho => by rw [hall op ho]; simp; omega)

theorem c3_copy_independent_witness :
    EngWF ⟨[(1, ⟨[⟨"s", ColBody.strs ["x"] 0, 1⟩], 1⟩)], 2⟩ ∧
    (∃ (h' : Nat) (g' : Engine),
      dset_copy ⟨[(1, ⟨[⟨"s", ColBody.strs ["x"] 0, 1⟩], 1⟩)], 2⟩ 1 =
        .ok (h', g') ∧ h' ≠ 1 ∧
      findDs g'.table h' = some ⟨[⟨"s", ColBody.strs ["x"] 0, 1⟩], 1⟩ ∧
      findDs g'.table 1 = some ⟨[⟨"s", ColBody.strs ["x"] 0, 1⟩], 1⟩) :=
  ⟨by decide, by
    obtain ⟨h', g', h₁, h₂, h₃, h₄, _⟩ :=
      c3_copy_independent (g := ⟨[(1, ⟨[⟨"s", ColBody.strs ["x"] 0, 1⟩], 1⟩)],
        2⟩) (h := 1) (d := ⟨[⟨"s", ColBody.strs ["x"] 0, 1⟩], 1⟩)
        (by decide) (by decide)
    exact ⟨h', g', h₁, h₂, h₃, h₄⟩⟩

theorem findColIn_append_none {cs : List Column} {c₀ : Column} {k : String}
    (h₁ : findColIn cs k = none) (h₂ : c₀.key ≠ k) :
    findColIn (cs ++ [c₀]) k = none := by
  induction cs with
  | nil => simp [findColIn, h₂]
  | cons c rest ih =>
    by_cases hk : c.key = k
    · simp [findColIn, hk] at h₁
    · simp [findColIn, hk] at h₁ ⊢
      exact ih h₁

theorem ColReq.mkCol_key (r : ColReq) (nrow : Nat) (k : String) :
    (r.mkCol nrow k).key = k := by
  cases r <;> rfl

theorem step_addcol {g : Engine} {h : Nat} {d : Dataset} {k : String}
    {req : ColReq} (hlive : findDs g.table h = some d)
    (hfresh : d.findCol k = none) (hok : req.okShape) :
    findDs (step g (addcolOp h (k, req))).table h =
      some ⟨d.cols ++ [req.mkCol d.nrow k], d.nrow⟩ := by
  cases req with
  | scalarReq t =>
    have hds : d.addcolScalar k t =
        .ok ⟨d.cols ++ [⟨k, .scalar t (List.replicate d.nrow 0), d.nrow⟩],
          d.nrow⟩ := by
      simp [Dataset.addcolScalar, hfresh]
    simp [addcolOp, step, dset_addcol_scalar, mutateDs, hlive, hds,
      findDs_update_self hlive, ColReq.mkCol]
  | arrayReq t shape =>
    obtain ⟨hne, hnz⟩ := hok
    have hsh : ¬(shape = [] ∨ 0 ∈ shape) := by tauto
    have hds : d.addcolArray k t shape =
        .ok ⟨d.cols ++ [⟨k, .arr t shape
            (List.replicate d.nrow (List.replicate shape.prod 0)), d.nrow⟩],
          d.nrow⟩ := by
      simp only [Dataset.addcolArray, if_neg hsh, hfresh]
    simp [addcolOp, step, dset_addcol_array, mutateDs, hlive, hds,
      findDs_update_self hlive, ColReq.mkCol]

theorem runAddcols_cols {h : Nat} :
    ∀ (specs : List (String × ColReq)) (g : Engine) (d : Dataset),
    EngWF g → findDs g.table h = some d →
    (specs.map Prod.fst).Nodup →
    (∀ s ∈ specs, d.findCol s.1 = none) →
    (∀ s ∈ specs, ColReq.okShape s.2) →
    findDs (runAddcols g h specs).table h =
      some ⟨d.cols ++ specs.map (fun s => ColReq.mkCol s.2 d.nrow s.1),
        d.nrow⟩ := by
  intro specs
  induction specs with
  | nil =>
    intro g d hg hfd _ _ _
    simpa [runAddcols, runOps] using hfd
  | cons s rest ih =>
    intro g d hg hfd hnd hfresh hok
    obtain ⟨k, req⟩ := s
    have hstep := step_addcol hfd (hfresh (k, req) (List.mem_cons_self _ _))
      (hok (k, req) (List.mem_cons_self _ _))
    have hg₁ := stepWF hg (addcolOp h (k, req))
    simp at hnd
    have hkn : k ∉ rest.map Prod.fst := by
      intro hmem
      simp at hmem
      obtain ⟨r, hr⟩ := hmem
      exact absurd hr (hnd.1 r)
    have hd₁ := ih (step g (addcolOp h (k, req)))
      ⟨d.cols ++ [req.mkCol d.nrow k], d.nrow⟩ hg₁ hstep hnd.2
      (by
        intro s' hs'
        refine findColIn_append_none (hfresh s' (List.mem_cons_of_mem _ hs'))
          ?_
        rw [ColReq.mkCol_key]
        intro hkk
        exact hkn (hkk ▸ List.mem_map_of_mem Prod.fst hs'))
      (fun s' hs' => hok s' (List.mem_cons_of_mem _ hs'))
    have hrun : runAddcols g h ((k, req) :: rest) =
        runAddcols (step g (addcolOp h (k, req))) h rest := rfl
    rw [hrun, hd₁]
    simp

theorem c7_fresh_findCol {d : Dataset} (hempty : d.cols = []) (k : String) :
    d.findCol k = none := by
  simp [Dataset.findCol, hempty, findColIn]

/-- C7: starting from a freshly created (column-free) dataset on a live
handle, after any sequence of `addcol_scalar`/`addcol_array` calls with
pairwise distinct keys and valid shapes — all of which succeed — `ncol`
equals the number of calls, `key(i)` for `i < ncol` returns the `i`-th key in
insertion order, and `key(i)` for `i ≥ ncol` reports `IndexOutOfRange`. -/
theorem c7_insertion_order {g : Engine} {h : Nat} {d : Dataset}
    (hg : EngWF g) (hlive : findDs g.table h = some d) (hempty : d.cols = [])
    (specs : List (String × ColReq))
    (hnd : (specs.map Prod.fst).Nodup)
    (hok : ∀ s ∈ specs, ColReq.okShape s.2) :
    dset_ncol (runAddcols g h specs) h = .ok specs.length ∧
    (∀ (i : Nat) (hi : i < specs.length),
      dset_key (runAddcols g h specs) h i = .ok (specs.get ⟨i, hi⟩).1) ∧
    (∀ i : Nat, specs.length ≤ i →
      dset_key (runAddcols g h specs) h i = .error .IndexOutOfRange) := by
  have hrun := runAddcols_cols specs g d hg hlive hnd
    (fun s _ => c7_fresh_findCol hempty s.1) hok
  rw [hempty] at hrun
  simp only [List.nil_append] at hrun
  refine ⟨?_, ?_, ?_⟩
  · simp [dset_ncol, queryDs, hrun]
  · intro i hi
    have h₁ : (specs.map
        (fun s => ColReq.mkCol s.2 d.nrow s.1))[i]? =
        some (ColReq.mkCol (specs.get ⟨i, hi⟩).2 d.nrow (specs.get ⟨i, hi⟩).1) := by
      rw [List.getElem?_map, List.getElem?_eq_getElem hi]
      rfl
    simp [dset_key, queryDs, hrun, Dataset.keyAt, h₁, ColReq.mkCol_key]
  · intro i hi
    have h₁ : (specs.map
        (fun s => ColReq.mkCol s.2 d.nrow s.1))[i]? = none := by
      rw [List.getElem?_eq_none]
      simpa using hi
    simp [dset_key, queryDs, hrun, Dataset.keyAt, h₁]

theorem c7_insertion_order_witness :
    EngWF ⟨[(1, emptyDataset)], 2⟩ ∧
    (([("a", ColReq.scalarReq DType.i32),
       ("b", ColReq.arrayReq DType.f64 [2, 2])].map Prod.fst).Nodup) ∧
    dset_ncol (runAddcols ⟨[(1, emptyDataset)], 2⟩ 1
      [("a", ColReq.scalarReq DType.i32),
       ("b", ColReq.arrayReq DType.f64 [2, 2])]) 1 = .ok 2 ∧
    dset_key (runAddcols ⟨[(1, emptyDataset)], 2⟩ 1
      [("a", ColReq.scalarReq DType.i32),
       ("b", ColReq.arrayReq DType.f64 [2, 2])]) 1 0 = .ok "a" ∧
    dset_key (runAddcols ⟨[(1, emptyDataset)], 2⟩ 1
      [("a", ColReq.scalarReq DType.i32),
       ("b", ColReq.arrayReq DType.f64 [2, 2])]) 1 5 =
      .error .IndexOutOfRange := by
  have hc := c7_insertion_order (g := ⟨[(1, emptyDataset)], 2⟩) (h := 1)
    (d := emptyDataset) (by decide) (by decide) (by decide)
    [("a", ColReq.scalarReq DType.i32),
     ("b", ColReq.arrayReq DType.f64 [2, 2])]
    (by decide) (by decide)
  exact ⟨by decide, by decide, hc.1, hc.2.1 0 (by decide), hc.2.2 5 (by decide)⟩
